import Mathlib

/-!
Verification of the affine virtual-column module of Plonky3
(`air/src/virtual_column.rs`): the `PairCol` column references, the
`VirtualPairCol` affine form, its constructors, accessors, and the generic
`apply` evaluation.  Fallible slice indexing is embedded as `Option`.
-/

namespace Plonky3

/-- A column in a PAIR, i.e. either a preprocessed column or a main trace
column (`enum PairCol`). -/
inductive PairCol where
  | preprocessed : Nat → PairCol
  | main : Nat → PairCol
deriving DecidableEq

/-- Resolution of a column reference against the two row slices
(`PairCol::get`).  The Rust code indexes the chosen slice directly, which is a
fatal (panicking) failure when out of range; the fallible indexing is embedded
as `Option`, with `none` standing for the panic. -/
def PairCol.get {T : Type} (c : PairCol) (preprocessed main : List T) : Option T :=
  match c with
  | .preprocessed i => preprocessed.get? i
  | .main i => main.get? i

/-- An affine function over columns in a PAIR (`struct VirtualPairCol`).  The
Rust struct stores the weights behind `Cow<[(PairCol, F)]>`; both the owned and
the borrowed variant dereference to the same slice, so the embedding keeps a
plain list. -/
structure VirtualPairCol (F : Type) where
  column_weights : List (PairCol × F)
  constant : F

/-- Operations that `VirtualPairCol::apply` demands of its generic
instantiation: the conversions `F: Into<Expr>` and `Var: Into<Expr>`, the
addition of `Expr: AbstractField`, and the multiplication
`Expr: Mul<F, Output = Expr>`. -/
structure ApplyOps (F Expr Var : Type) where
  coeF : F → Expr
  coeVar : Var → Expr
  add : Expr → Expr → Expr
  mulF : Expr → F → Expr

/-- Generic evaluation (`VirtualPairCol::apply`): the accumulator starts at
the constant converted into `Expr`; each entry, in stored order, resolves its
column against the rows, converts the `Var` into `Expr`, multiplies by the
stored weight on the right, and adds the product into the accumulator.  The
`Option` propagates a fatal out-of-range column resolution. -/
def VirtualPairCol.applyG {F Expr Var : Type} (ops : ApplyOps F Expr Var)
    (vc : VirtualPairCol F) (preprocessed main : List Var) : Option Expr :=
  vc.column_weights.foldlM
    (fun result cw =>
      (cw.1.get preprocessed main).map
        (fun v => ops.add result (ops.mulF (ops.coeVar v) cw.2)))
    (ops.coeF vc.constant)

/-- Instantiation of the generic operations at `Expr = Var = F` itself, with
the identity conversions and the field's own addition and multiplication. -/
def fieldOps (F : Type) [Field F] : ApplyOps F F F :=
  { coeF := id, coeVar := id, add := fun a b => a + b, mulF := fun a w => a * w }

/-- Concrete evaluation: `apply` with `Expr = Var =` the field element type. -/
def VirtualPairCol.apply {F : Type} [Field F] (vc : VirtualPairCol F)
    (preprocessed main : List F) : Option F :=
  vc.applyG (fieldOps F) preprocessed main

/-- Constructor `VirtualPairCol::new`. -/
def VirtualPairCol.new {F : Type} (column_weights : List (PairCol × F))
    (constant : F) : VirtualPairCol F :=
  ⟨column_weights, constant⟩

/-- Constructor `VirtualPairCol::new_owned` (the `Cow::Owned` variant holds the
same entry list). -/
def VirtualPairCol.new_owned {F : Type} (column_weights : List (PairCol × F))
    (constant : F) : VirtualPairCol F :=
  ⟨column_weights, constant⟩

/-- Constructor `VirtualPairCol::new_borrowed` (the `Cow::Borrowed` variant
holds the same entry list). -/
def VirtualPairCol.new_borrowed {F : Type} (column_weights : List (PairCol × F))
    (constant : F) : VirtualPairCol F :=
  ⟨column_weights, constant⟩

/-- Constructor `VirtualPairCol::new_preprocessed`: wraps each index as a
preprocessed column. -/
def VirtualPairCol.new_preprocessed {F : Type} (column_weights : List (Nat × F))
    (constant : F) : VirtualPairCol F :=
  VirtualPairCol.new
    (column_weights.map (fun iw => (PairCol.preprocessed iw.1, iw.2))) constant

/-- Constructor `VirtualPairCol::new_main`: wraps each index as a main
column. -/
def VirtualPairCol.new_main {F : Type} (column_weights : List (Nat × F))
    (constant : F) : VirtualPairCol F :=
  VirtualPairCol.new
    (column_weights.map (fun iw => (PairCol.main iw.1, iw.2))) constant

/-- Accessor `VirtualPairCol::get_column_weights`. -/
def VirtualPairCol.get_column_weights {F : Type} (vc : VirtualPairCol F) :
    List (PairCol × F) :=
  vc.column_weights

/-- Accessor `VirtualPairCol::get_constant`. -/
def VirtualPairCol.get_constant {F : Type} (vc : VirtualPairCol F) : F :=
  vc.constant

/-- Constructor `VirtualPairCol::constant`: no entries, the given constant.
(Named `constantCol` because the structure field accessor already takes the
name `constant`.) -/
def VirtualPairCol.constantCol {F : Type} (x : F) : VirtualPairCol F :=
  ⟨[], x⟩

/-- Constructor `VirtualPairCol::one`: the constant form at `F::one()`. -/
def VirtualPairCol.one {F : Type} [Field F] : VirtualPairCol F :=
  VirtualPairCol.constantCol 1

/-- Constructor `VirtualPairCol::single`: weight one on the given column,
constant zero. -/
def VirtualPairCol.single {F : Type} [Field F] (column : PairCol) :
    VirtualPairCol F :=
  ⟨[(column, 1)], 0⟩

/-- Constructor `VirtualPairCol::single_preprocessed`. -/
def VirtualPairCol.single_preprocessed {F : Type} [Field F] (column : Nat) :
    VirtualPairCol F :=
  VirtualPairCol.single (PairCol.preprocessed column)

/-- Constructor `VirtualPairCol::single_main`. -/
def VirtualPairCol.single_main {F : Type} [Field F] (column : Nat) :
    VirtualPairCol F :=
  VirtualPairCol.single (PairCol.main column)

/-- Constructor `VirtualPairCol::sum_main`: weight one on each listed main
column, constant zero. -/
def VirtualPairCol.sum_main {F : Type} [Field F] (columns : List Nat) :
    VirtualPairCol F :=
  VirtualPairCol.new_main (columns.map (fun col => (col, 1))) 0

/-- Constructor `VirtualPairCol::sum_preprocessed`: weight one on each listed
preprocessed column, constant zero. -/
def VirtualPairCol.sum_preprocessed {F : Type} [Field F] (columns : List Nat) :
    VirtualPairCol F :=
  VirtualPairCol.new_preprocessed (columns.map (fun col => (col, 1))) 0

/-- Constructor `VirtualPairCol::diff_preprocessed`: `a - b` over preprocessed
columns, i.e. weight `1` on `a`, `-1` on `b`, constant zero. -/
def VirtualPairCol.diff_preprocessed {F : Type} [Field F] (a_col b_col : Nat) :
    VirtualPairCol F :=
  VirtualPairCol.new_preprocessed [(a_col, 1), (b_col, -1)] 0

/-- Constructor `VirtualPairCol::diff_main`: `a - b` over main columns. -/
def VirtualPairCol.diff_main {F : Type} [Field F] (a_col b_col : Nat) :
    VirtualPairCol F :=
  VirtualPairCol.new_main [(a_col, 1), (b_col, -1)] 0

/-- A symbolic expression builder over field constants and numbered variables,
closed under the two operations `apply` performs: addition of expressions and
multiplication of an expression by a field constant on the right. -/
inductive SymExpr (F : Type) where
  | const : F → SymExpr F
  | var : Nat → SymExpr F
  | add : SymExpr F → SymExpr F → SymExpr F
  | mulF : SymExpr F → F → SymExpr F

/-- Substitution of concrete values for the variables of a symbolic
expression, evaluating with the field's operations. -/
def SymExpr.eval {F : Type} [Field F] (env : Nat → F) : SymExpr F → F
  | .const x => x
  | .var i => env i
  | .add e1 e2 => e1.eval env + e2.eval env
  | .mulF e w => e.eval env * w

/-- Instantiation of the generic operations at `Expr =` symbolic expressions
and `Var =` variable numbers. -/
def symOps (F : Type) : ApplyOps F (SymExpr F) Nat :=
  { coeF := SymExpr.const, coeVar := SymExpr.var,
    add := SymExpr.add, mulF := SymExpr.mulF }

/-- Resolving a column against mapped rows is mapping the resolution. -/
theorem PairCol.get_map {T U : Type} (f : T → U) (c : PairCol)
    (pre mn : List T) :
    c.get (pre.map f) (mn.map f) = (c.get pre mn).map f := by
  cases c <;> simp [PairCol.get]

/-- The evaluation loop of `apply` at `Expr = Var = F`: starting from any
accumulator, when every entry resolves, the loop returns the accumulator plus
the weighted sum of the resolved values, each multiplied by its weight on the
right, in stored order. -/
theorem apply_loop_eq {F : Type} [Field F] (pre mn : List F) :
    ∀ (l : List (PairCol × F)) (a : F),
      (∀ cw ∈ l, ((cw.1).get pre mn).isSome) →
      List.foldlM
          (fun result cw =>
            ((cw.1).get pre mn).map (fun v => result + v * cw.2)) a l
        = some (a + (l.map (fun cw => ((cw.1).get pre mn).getD 0 * cw.2)).sum) := by
  intro l
  induction l with
  | nil =>
    intro a _
    simp only [List.foldlM_nil, List.map_nil, List.sum_nil, add_zero]
    rfl
  | cons cw l ih =>
    intro a h
    obtain ⟨v, hv⟩ :=
      Option.isSome_iff_exists.mp (h cw (List.mem_cons_self cw l))
    rw [List.foldlM_cons, hv]
    have htail : ∀ cw2 ∈ l, ((cw2.1).get pre mn).isSome :=
      fun cw2 hm => h cw2 (List.mem_cons_of_mem cw hm)
    simp only [Option.map_some', Option.bind_eq_bind, Option.some_bind]
    calc List.foldlM
          (fun result cw =>
            ((cw.1).get pre mn).map (fun v => result + v * cw.2))
          (a + v * cw.2) l
        = some ((a + v * cw.2)
            + (l.map (fun cw => ((cw.1).get pre mn).getD 0 * cw.2)).sum) :=
          ih (a + v * cw.2) htail
      _ = some (a + ((cw :: l).map
            (fun cw => ((cw.1).get pre mn).getD 0 * cw.2)).sum) := by
          simp [hv, add_assoc]

/-- The evaluation loop at the symbolic instantiation commutes with
substitution: evaluating the symbolic fold under an environment gives the
concrete fold over the substituted rows, from any pair of matching
accumulators. -/
theorem symbolic_loop_eq {F : Type} [Field F] (preIds mainIds : List Nat)
    (env : Nat → F) :
    ∀ (l : List (PairCol × F)) (e : SymExpr F),
      (List.foldlM
          (fun (result : SymExpr F) (cw : PairCol × F) =>
            ((cw.1).get preIds mainIds).map
              (fun v => SymExpr.add result (SymExpr.mulF (SymExpr.var v) cw.2)))
          e l).map (SymExpr.eval env)
        = List.foldlM
            (fun (result : F) (cw : PairCol × F) =>
              ((cw.1).get (preIds.map env) (mainIds.map env)).map
                (fun v => result + v * cw.2))
            (e.eval env) l := by
  intro l
  induction l with
  | nil => intro e; rfl
  | cons cw l ih =>
    intro e
    rw [List.foldlM_cons, List.foldlM_cons, PairCol.get_map]
    cases hg : (cw.1).get preIds mainIds with
    | none => simp [hg]
    | some v =>
      simp only [hg, Option.map_some', Option.bind_eq_bind, Option.some_bind]
      exact ih (SymExpr.add e (SymExpr.mulF (SymExpr.var v) cw.2))

/-- Unfolding of the concrete `apply` as a fold over the stored entries. -/
theorem apply_def_eq {F : Type} [Field F] (vc : VirtualPairCol F)
    (pre mn : List F) :
    vc.apply pre mn
      = List.foldlM
          (fun (result : F) (cw : PairCol × F) =>
            ((cw.1).get pre mn).map (fun v => result + v * cw.2))
          vc.constant vc.column_weights :=
  rfl

/-- Entry list of `sum_main`: weight one on each listed main column. -/
theorem sum_main_weights {F : Type} [Field F] (idxs : List Nat) :
    (VirtualPairCol.sum_main (F := F) idxs).column_weights
      = idxs.map (fun i => (PairCol.main i, (1 : F))) := by
  simp [VirtualPairCol.sum_main, VirtualPairCol.new_main, VirtualPairCol.new,
    List.map_map, Function.comp]

/-- Entry list of `sum_preprocessed`: weight one on each listed preprocessed
column. -/
theorem sum_preprocessed_weights {F : Type} [Field F] (idxs : List Nat) :
    (VirtualPairCol.sum_preprocessed (F := F) idxs).column_weights
      = idxs.map (fun i => (PairCol.preprocessed i, (1 : F))) := by
  simp [VirtualPairCol.sum_preprocessed, VirtualPairCol.new_preprocessed,
    VirtualPairCol.new, List.map_map, Function.comp]

/-- Evaluation of `sum_main` when every listed index is in range: the sum of
the referenced main-row entries, in listed order. -/
theorem sum_main_apply_eq {F : Type} [Field F] (idxs : List Nat)
    (pre mn : List F) (hm : ∀ i ∈ idxs, i < mn.length) :
    (VirtualPairCol.sum_main idxs).apply pre mn
      = some ((idxs.map (fun i => (mn.get? i).getD 0)).sum) := by
  have hsome : ∀ cw ∈ idxs.map (fun i => (PairCol.main i, (1 : F))),
      ((cw.1).get pre mn).isSome := by
    intro cw hcw
    rw [List.mem_map] at hcw
    obtain ⟨i, hi, rfl⟩ := hcw
    simp only [PairCol.get, List.get?_eq_get (hm i hi), Option.isSome_some]
  rw [apply_def_eq, sum_main_weights,
    apply_loop_eq pre mn (idxs.map (fun i => (PairCol.main i, (1 : F)))) _ hsome]
  have hc : (VirtualPairCol.sum_main (F := F) idxs).constant = 0 := rfl
  rw [hc]
  simp [PairCol.get, List.map_map, Function.comp_def]

/-- Evaluation of `sum_preprocessed` when every listed index is in range. -/
theorem sum_preprocessed_apply_eq {F : Type} [Field F] (idxs : List Nat)
    (pre mn : List F) (hp : ∀ i ∈ idxs, i < pre.length) :
    (VirtualPairCol.sum_preprocessed idxs).apply pre mn
      = some ((idxs.map (fun i => (pre.get? i).getD 0)).sum) := by
  have hsome : ∀ cw ∈ idxs.map (fun i => (PairCol.preprocessed i, (1 : F))),
      ((cw.1).get pre mn).isSome := by
    intro cw hcw
    rw [List.mem_map] at hcw
    obtain ⟨i, hi, rfl⟩ := hcw
    simp only [PairCol.get, List.get?_eq_get (hp i hi), Option.isSome_some]
  rw [apply_def_eq, sum_preprocessed_weights,
    apply_loop_eq pre mn (idxs.map (fun i => (PairCol.preprocessed i, (1 : F)))) _ hsome]
  have hc : (VirtualPairCol.sum_preprocessed (F := F) idxs).constant = 0 := rfl
  rw [hc]
  simp [PairCol.get, List.map_map, Function.comp_def]

/-- List indexing succeeds exactly on in-range indices. -/
theorem get?_isSome_iff {T : Type} (l : List T) (i : Nat) :
    (l.get? i).isSome ↔ i < l.length := by
  rw [Option.isSome_iff_exists]
  constructor
  · rintro ⟨a, ha⟩
    by_contra hlt
    rw [List.get?_len_le (Nat.le_of_not_lt hlt)] at ha
    exact Option.noConfusion ha
  · intro h
    exact ⟨_, List.get?_eq_get h⟩

/-- Evaluation of `single_main` at an in-range index. -/
theorem single_main_apply_eq {F : Type} [Field F] (i : Nat) (pre mn : List F)
    (h : i < mn.length) :
    (VirtualPairCol.single_main i).apply pre mn = some (mn.get ⟨i, h⟩) := by
  rw [apply_def_eq]
  have hw : (VirtualPairCol.single_main (F := F) i).column_weights
      = [(PairCol.main i, 1)] := rfl
  have hc : (VirtualPairCol.single_main (F := F) i).constant = 0 := rfl
  rw [hw, hc, List.foldlM_cons]
  simp [PairCol.get, List.get?_eq_get h]

/-- Evaluation of `single_preprocessed` at an in-range index. -/
theorem single_preprocessed_apply_eq {F : Type} [Field F] (i : Nat)
    (pre mn : List F) (h : i < pre.length) :
    (VirtualPairCol.single_preprocessed i).apply pre mn = some (pre.get ⟨i, h⟩) := by
  rw [apply_def_eq]
  have hw : (VirtualPairCol.single_preprocessed (F := F) i).column_weights
      = [(PairCol.preprocessed i, 1)] := rfl
  have hc : (VirtualPairCol.single_preprocessed (F := F) i).constant = 0 := rfl
  rw [hw, hc, List.foldlM_cons]
  simp [PairCol.get, List.get?_eq_get h]

/-- Evaluation of `diff_main` at in-range indices: the difference of the two
referenced main-row entries. -/
theorem diff_main_apply_eq {F : Type} [Field F] (a b : Nat) (pre mn : List F)
    (ha : a < mn.length) (hb : b < mn.length) :
    (VirtualPairCol.diff_main a b).apply pre mn
      = some (mn.get ⟨a, ha⟩ - mn.get ⟨b, hb⟩) := by
  rw [apply_def_eq]
  have hw : (VirtualPairCol.diff_main (F := F) a b).column_weights
      = [(PairCol.main a, 1), (PairCol.main b, -1)] := rfl
  have hc : (VirtualPairCol.diff_main (F := F) a b).constant = 0 := rfl
  rw [hw, hc, List.foldlM_cons]
  simp only [PairCol.get, List.get?_eq_get ha, List.get?_eq_get hb,
    Option.map_some', Option.bind_eq_bind, Option.some_bind, List.foldlM_cons,
    List.foldlM_nil]
  congr 1
  ring

/-- Evaluation of `diff_preprocessed` at in-range indices. -/
theorem diff_preprocessed_apply_eq {F : Type} [Field F] (a b : Nat)
    (pre mn : List F) (ha : a < pre.length) (hb : b < pre.length) :
    (VirtualPairCol.diff_preprocessed a b).apply pre mn
      = some (pre.get ⟨a, ha⟩ - pre.get ⟨b, hb⟩) := by
  rw [apply_def_eq]
  have hw : (VirtualPairCol.diff_preprocessed (F := F) a b).column_weights
      = [(PairCol.preprocessed a, 1), (PairCol.preprocessed b, -1)] := rfl
  have hc : (VirtualPairCol.diff_preprocessed (F := F) a b).constant = 0 := rfl
  rw [hw, hc, List.foldlM_cons]
  simp only [PairCol.get, List.get?_eq_get ha, List.get?_eq_get hb,
    Option.map_some', Option.bind_eq_bind, Option.some_bind, List.foldlM_cons,
    List.foldlM_nil]
  congr 1
  ring

/-- Seven is prime, so `ZMod 7` is a field; used for concrete scenarios. -/
instance instFactPrimeSeven : Fact (Nat.Prime 7) := ⟨by norm_num⟩

/-- C1: with `Expr = Var =` the field element type, when every referenced
index is in range, `apply` returns the constant plus the sum over entries of
weight times the referenced row element, folded in stored order. -/
theorem apply_eq_affine_sum {F : Type} [Field F] (vc : VirtualPairCol F)
    (pre mn : List F)
    (h : ∀ cw ∈ vc.column_weights, ((cw.1).get pre mn).isSome) :
    vc.apply pre mn
      = some (vc.constant
          + (vc.column_weights.map
              (fun cw => cw.2 * ((cw.1).get pre mn).getD 0)).sum) := by
  rw [apply_def_eq, apply_loop_eq pre mn vc.column_weights vc.constant h]
  have hmap : vc.column_weights.map (fun cw => ((cw.1).get pre mn).getD 0 * cw.2)
      = vc.column_weights.map (fun cw => cw.2 * ((cw.1).get pre mn).getD 0) :=
    List.map_congr_left (fun cw _ => mul_comm _ _)
  rw [hmap]

/-- Witness for C1 at a concrete affine form over `ZMod 7`. -/
theorem apply_eq_affine_sum_witness :
    (∀ cw ∈ (VirtualPairCol.new
        [(PairCol.main 0, (2 : ZMod 7)), (PairCol.preprocessed 0, 3)]
        5).column_weights, ((cw.1).get [4] [6]).isSome)
    ∧ (VirtualPairCol.new
        [(PairCol.main 0, (2 : ZMod 7)), (PairCol.preprocessed 0, 3)] 5).apply
          [4] [6]
      = some ((VirtualPairCol.new
            [(PairCol.main 0, (2 : ZMod 7)), (PairCol.preprocessed 0, 3)]
            5).constant
          + ((VirtualPairCol.new
              [(PairCol.main 0, (2 : ZMod 7)), (PairCol.preprocessed 0, 3)]
              5).column_weights.map
                (fun cw => cw.2 * ((cw.1).get [4] [6]).getD 0)).sum) :=
  ⟨by decide, apply_eq_affine_sum _ [4] [6] (by decide)⟩

/-- C2: evaluating `apply` at the symbolic instantiation and then
substituting concrete row values equals evaluating `apply` directly at the
concrete field instantiation over the substituted rows. -/
theorem apply_symbolic_refines_concrete {F : Type} [Field F]
    (vc : VirtualPairCol F) (preIds mainIds : List Nat) (env : Nat → F) :
    (vc.applyG (symOps F) preIds mainIds).map (SymExpr.eval env)
      = vc.apply (preIds.map env) (mainIds.map env) := by
  rw [VirtualPairCol.apply, VirtualPairCol.applyG, VirtualPairCol.applyG]
  exact symbolic_loop_eq preIds mainIds env vc.column_weights
    (SymExpr.const vc.constant)

/-- C3: resolving a column reference fails exactly when its index is out of
range for the named table, returns exactly the element at the index when in
range, and `Main(5)` against a main row of length 2 is the fatal failure. -/
theorem get_in_range_iff {T : Type} (i : Nat) (pre mn : List T) :
    (((PairCol.main i).get pre mn).isSome ↔ i < mn.length)
    ∧ (((PairCol.preprocessed i).get pre mn).isSome ↔ i < pre.length)
    ∧ (∀ h : i < mn.length, (PairCol.main i).get pre mn = some (mn.get ⟨i, h⟩))
    ∧ (∀ h : i < pre.length,
        (PairCol.preprocessed i).get pre mn = some (pre.get ⟨i, h⟩))
    ∧ (∀ a b : T, (PairCol.main 5).get pre [a, b] = none) := by
  refine ⟨get?_isSome_iff mn i, get?_isSome_iff pre i, ?_, ?_, ?_⟩
  · intro h
    simp [PairCol.get, List.get?_eq_get h]
  · intro h
    simp [PairCol.get, List.get?_eq_get h]
  · intro a b
    rfl

/-- Witness for C3: the in-range reads and the boundary failure at concrete
rows. -/
theorem get_in_range_iff_witness :
    (PairCol.main 5).get ([(3 : ZMod 7)]) [5, 2] = none :=
  (get_in_range_iff 5 [(3 : ZMod 7)] [5, 2]).2.2.2.2 5 2

/-- C4: the constant form evaluates to its constant on every pair of rows
with no column lookups, and `one()` is the constant form at the multiplicative
identity. -/
theorem constant_one_apply {F : Type} [Field F] (x : F) (pre mn : List F) :
    (VirtualPairCol.constantCol x).apply pre mn = some x
    ∧ (VirtualPairCol.one : VirtualPairCol F) = VirtualPairCol.constantCol 1
    ∧ (VirtualPairCol.one : VirtualPairCol F).apply pre mn = some 1 :=
  ⟨rfl, rfl, rfl⟩

/-- C5: each single-column form evaluates to exactly the referenced row
element when the index is in range. -/
theorem single_apply {F : Type} [Field F] (i : Nat) (pre mn : List F)
    (h1 : i < mn.length) (h2 : i < pre.length) :
    (VirtualPairCol.single_main i).apply pre mn = some (mn.get ⟨i, h1⟩)
    ∧ (VirtualPairCol.single_preprocessed i).apply pre mn
        = some (pre.get ⟨i, h2⟩) :=
  ⟨single_main_apply_eq i pre mn h1, single_preprocessed_apply_eq i pre mn h2⟩

/-- Witness for C5 at concrete rows over `ZMod 7`. -/
theorem single_apply_witness :
    (0 < ([(3 : ZMod 7), 4]).length ∧ 0 < ([(2 : ZMod 7)]).length)
    ∧ ((VirtualPairCol.single_main 0).apply [(2 : ZMod 7)] [3, 4]
          = some (([(3 : ZMod 7), 4]).get ⟨0, by decide⟩)
        ∧ (VirtualPairCol.single_preprocessed 0).apply [(2 : ZMod 7)] [3, 4]
          = some (([(2 : ZMod 7)]).get ⟨0, by decide⟩)) :=
  ⟨⟨by decide, by decide⟩, single_apply 0 [2] [3, 4] (by decide) (by decide)⟩

/-- C6: each sum form evaluates to the field sum of the listed row elements
when every listed index is in range, and the evaluated result is unchanged
under any permutation of the index list. -/
theorem sum_apply_perm {F : Type} [Field F] (idxs idxs2 : List Nat)
    (pre mn : List F) (hm : ∀ i ∈ idxs, i < mn.length)
    (hp : ∀ i ∈ idxs, i < pre.length) (hperm : idxs.Perm idxs2) :
    ((VirtualPairCol.sum_main idxs).apply pre mn
        = some ((idxs.map (fun i => (mn.get? i).getD 0)).sum))
    ∧ (VirtualPairCol.sum_main idxs).apply pre mn
        = (VirtualPairCol.sum_main idxs2).apply pre mn
    ∧ ((VirtualPairCol.sum_preprocessed idxs).apply pre mn
        = some ((idxs.map (fun i => (pre.get? i).getD 0)).sum))
    ∧ (VirtualPairCol.sum_preprocessed idxs).apply pre mn
        = (VirtualPairCol.sum_preprocessed idxs2).apply pre mn := by
  have hm2 : ∀ i ∈ idxs2, i < mn.length :=
    fun i hi => hm i (hperm.mem_iff.mpr hi)
  have hp2 : ∀ i ∈ idxs2, i < pre.length :=
    fun i hi => hp i (hperm.mem_iff.mpr hi)
  refine ⟨sum_main_apply_eq idxs pre mn hm, ?_,
    sum_preprocessed_apply_eq idxs pre mn hp, ?_⟩
  · rw [sum_main_apply_eq idxs pre mn hm, sum_main_apply_eq idxs2 pre mn hm2]
    exact congrArg some (hperm.map _).sum_eq
  · rw [sum_preprocessed_apply_eq idxs pre mn hp,
      sum_preprocessed_apply_eq idxs2 pre mn hp2]
    exact congrArg some (hperm.map _).sum_eq

/-- Witness for C6 at concrete index lists and rows over `ZMod 7`. -/
theorem sum_apply_perm_witness :
    ((∀ i ∈ [0, 1], i < ([(5 : ZMod 7), 2]).length)
      ∧ (∀ i ∈ [0, 1], i < ([(3 : ZMod 7), 6]).length)
      ∧ ([0, 1] : List Nat).Perm [1, 0])
    ∧ (((VirtualPairCol.sum_main [0, 1]).apply [(3 : ZMod 7), 6] [5, 2]
          = some (([0, 1].map
              (fun i => (([(5 : ZMod 7), 2]).get? i).getD 0)).sum))
        ∧ (VirtualPairCol.sum_main [0, 1]).apply [(3 : ZMod 7), 6] [5, 2]
          = (VirtualPairCol.sum_main [1, 0]).apply [(3 : ZMod 7), 6] [5, 2]
        ∧ ((VirtualPairCol.sum_preprocessed [0, 1]).apply
              [(3 : ZMod 7), 6] [5, 2]
          = some (([0, 1].map
              (fun i => (([(3 : ZMod 7), 6]).get? i).getD 0)).sum))
        ∧ (VirtualPairCol.sum_preprocessed [0, 1]).apply
              [(3 : ZMod 7), 6] [5, 2]
          = (VirtualPairCol.sum_preprocessed [1, 0]).apply
              [(3 : ZMod 7), 6] [5, 2]) :=
  ⟨⟨by decide, by decide, List.Perm.swap 1 0 []⟩,
    sum_apply_perm [0, 1] [1, 0] [3, 6] [5, 2]
      (by decide) (by decide) (List.Perm.swap 1 0 [])⟩

/-- C7: each difference form evaluates to the difference of the two
referenced row elements when both indices are in range, and swapping the two
columns negates the evaluated result. -/
theorem diff_apply_sub {F : Type} [Field F] (a b : Nat) (pre mn : List F)
    (ham : a < mn.length) (hbm : b < mn.length)
    (hap : a < pre.length) (hbp : b < pre.length) :
    ((VirtualPairCol.diff_main a b).apply pre mn
        = some (mn.get ⟨a, ham⟩ - mn.get ⟨b, hbm⟩))
    ∧ (VirtualPairCol.diff_main a b).apply pre mn
        = ((VirtualPairCol.diff_main b a).apply pre mn).map (fun x => -x)
    ∧ ((VirtualPairCol.diff_preprocessed a b).apply pre mn
        = some (pre.get ⟨a, hap⟩ - pre.get ⟨b, hbp⟩))
    ∧ (VirtualPairCol.diff_preprocessed a b).apply pre mn
        = ((VirtualPairCol.diff_preprocessed b a).apply pre mn).map
            (fun x => -x) := by
  refine ⟨diff_main_apply_eq a b pre mn ham hbm, ?_,
    diff_preprocessed_apply_eq a b pre mn hap hbp, ?_⟩
  · rw [diff_main_apply_eq a b pre mn ham hbm,
      diff_main_apply_eq b a pre mn hbm ham]
    simp [neg_sub]
  · rw [diff_preprocessed_apply_eq a b pre mn hap hbp,
      diff_preprocessed_apply_eq b a pre mn hbp hap]
    simp [neg_sub]

/-- Witness for C7 at concrete rows over `ZMod 7`. -/
theorem diff_apply_sub_witness :
    (0 < ([(5 : ZMod 7), 2]).length ∧ 1 < ([(5 : ZMod 7), 2]).length
      ∧ 0 < ([(3 : ZMod 7), 6]).length ∧ 1 < ([(3 : ZMod 7), 6]).length)
    ∧ (((VirtualPairCol.diff_main 0 1).apply [(3 : ZMod 7), 6] [5, 2]
          = some (([(5 : ZMod 7), 2]).get ⟨0, by decide⟩
              - ([(5 : ZMod 7), 2]).get ⟨1, by decide⟩))
        ∧ (VirtualPairCol.diff_main 0 1).apply [(3 : ZMod 7), 6] [5, 2]
          = ((VirtualPairCol.diff_main 1 0).apply [(3 : ZMod 7), 6] [5, 2]).map
              (fun x => -x)
        ∧ ((VirtualPairCol.diff_preprocessed 0 1).apply
              [(3 : ZMod 7), 6] [5, 2]
          = some (([(3 : ZMod 7), 6]).get ⟨0, by decide⟩
              - ([(3 : ZMod 7), 6]).get ⟨1, by decide⟩))
        ∧ (VirtualPairCol.diff_preprocessed 0 1).apply
              [(3 : ZMod 7), 6] [5, 2]
          = ((VirtualPairCol.diff_preprocessed 1 0).apply
              [(3 : ZMod 7), 6] [5, 2]).map (fun x => -x)) :=
  ⟨⟨by decide, by decide, by decide, by decide⟩,
    diff_apply_sub 0 1 [3, 6] [5, 2]
      (by decide) (by decide) (by decide) (by decide)⟩

/-- C8: over `ZMod 7`, the form with entries `[(Main 0, 1), (Main 1, -1)]`
and constant 1 applied to preprocessed row `[3]` and main row `[5, 2]`
evaluates to 4, and `sum_preprocessed [0]` (constant 0) applied to
preprocessed row `[6]` evaluates to 6. -/
theorem apply_mod7_scenarios :
    ((VirtualPairCol.new [(PairCol.main 0, (1 : ZMod 7)), (PairCol.main 1, -1)]
        1).apply [3] [5, 2] = some 4)
    ∧ (VirtualPairCol.sum_preprocessed (F := ZMod 7) [0]).constant = 0
    ∧ (VirtualPairCol.sum_preprocessed (F := ZMod 7) [0]).apply [6] []
        = some 6 := by
  decide

/-- C9: the four `new` constructors round-trip through the accessors: the
entry lists come back with indices tagged for the named table, in order and
with unchanged weights, and the constant comes back unchanged. -/
theorem constructors_roundtrip {F : Type} (ws : List (Nat × F))
    (entries : List (PairCol × F)) (c : F) :
    ((VirtualPairCol.new_main ws c).get_column_weights
        = ws.map (fun iw => (PairCol.main iw.1, iw.2)))
    ∧ (VirtualPairCol.new_main ws c).get_constant = c
    ∧ ((VirtualPairCol.new_preprocessed ws c).get_column_weights
        = ws.map (fun iw => (PairCol.preprocessed iw.1, iw.2)))
    ∧ (VirtualPairCol.new_preprocessed ws c).get_constant = c
    ∧ (VirtualPairCol.new_owned entries c).get_column_weights = entries
    ∧ (VirtualPairCol.new_owned entries c).get_constant = c
    ∧ (VirtualPairCol.new_borrowed entries c).get_column_weights = entries
    ∧ (VirtualPairCol.new_borrowed entries c).get_constant = c :=
  ⟨rfl, rfl, rfl, rfl, rfl, rfl, rfl, rfl⟩

/-- C10: a difference form on one and the same in-range column evaluates to
the additive identity: the weights one and minus one cancel. -/
theorem diff_same_column_zero {F : Type} [Field F] (a : Nat) (pre mn : List F)
    (hm : a < mn.length) (hp : a < pre.length) :
    (VirtualPairCol.diff_main a a).apply pre mn = some 0
    ∧ (VirtualPairCol.diff_preprocessed a a).apply pre mn = some 0 := by
  constructor
  · rw [diff_main_apply_eq a a pre mn hm hm]
    simp
  · rw [diff_preprocessed_apply_eq a a pre mn hp hp]
    simp

/-- Witness for C10 at concrete rows over `ZMod 7`. -/
theorem diff_same_column_zero_witness :
    (1 < ([(5 : ZMod 7), 2]).length ∧ 1 < ([(3 : ZMod 7), 6]).length)
    ∧ ((VirtualPairCol.diff_main 1 1).apply [(3 : ZMod 7), 6] [5, 2] = some 0
        ∧ (VirtualPairCol.diff_preprocessed 1 1).apply [(3 : ZMod 7), 6] [5, 2]
          = some 0) :=
  ⟨⟨by decide, by decide⟩,
    diff_same_column_zero 1 [3, 6] [5, 2] (by decide) (by decide)⟩

end Plonky3
